import Mathlib

/-!
Verification development for the Heather-dialect tokenizer
(src/python/src/hhat_lang/dialects/heather/toolchain/pygments/lexer.py).

The repository defines the rule tables of a stack-based regex scanner
(class HeatherLexer).  The stepping loop itself is the host framework's
generic engine and is not part of the repository's sources; it is
modelled here from the specification's algorithm (spec section 4.1):
anchored first-match-wins rule scanning with a state stack, and a
single-character error-fallback step when no rule matches.

The rule tables below are translated pattern by pattern from the source
file; every regular expression is rendered as a small pattern AST
(`RPat`) whose anchored-match semantics (`matchPat`) mirrors Python
`re.match` at the cursor.  For the patterns occurring in this lexer,
greedy matching without backtracking coincides with Python's
backtracking semantics because every optional/alternative branch has a
first-character set disjoint from its competitors (noted per rule).
Word boundaries `\b` and lookaheads `(?=...)` are modelled exactly;
character classes are ASCII, as all patterns in the source are.
-/

namespace HeatherLex

/-- Token kinds, one per lexical category used by the rule tables
(spec section 3 taxonomy; source token types in comments). -/
inductive TokenKind where
  | whitespace             -- Whitespace
  | comment                -- Comment.Single / Comment.Multiline
  | keywordDeclaration     -- Keyword.Declaration
  | keywordType            -- Keyword.Type
  | keywordReserved        -- Keyword.Reserved
  | builtinTypeClassical   -- Name.Builtin
  | builtinTypeQuantum     -- Name.Builtin.Quantum
  | constantBoolean        -- Name.Constant
  | constantBooleanQuantum -- Name.Constant.Quantum
  | operatorWord           -- Operator.Word
  | operator               -- Operator
  | punctuation            -- Punctuation
  | decorator              -- Name.Decorator
  | numberQuantumInteger   -- Number.Quantum
  | numberFloat            -- Number.Float
  | numberInteger          -- Number.Integer
  | stringLiteral          -- String
  | identifierQuantum      -- Name.Variable.Quantum
  | typeIdentifier         -- Name.Class
  | identifier             -- Name
  | attributeName          -- Name.Attribute
  | errorFallback          -- Error (fallback)
  deriving DecidableEq, Repr

/-- Scanner states: keys of HeatherLexer.tokens (lexer.py lines 97-172). -/
inductive LexerState where
  | root
  | comment
  | traitList
  | modifier
  deriving DecidableEq, Repr

/-- Stack action attached to a rule (spec section 3: Stay, Push, Pop). -/
inductive Action where
  | stay
  | push (s : LexerState)
  | pop
  deriving DecidableEq, Repr

/-- An emitted token: kind, matched text and its half-open offset span. -/
structure Token where
  kind : TokenKind
  text : List Char
  startOff : Nat
  endOff : Nat
  deriving DecidableEq, Repr

/-- Python `\w` on the ASCII range: letters, digits, underscore. -/
def isWordChar (c : Char) : Bool :=
  c.isAlphanum || c == '_'

/-- Python `\s`: space, tab, newline, carriage return, vertical tab, form feed. -/
def isPySpace (c : Char) : Bool :=
  c == ' ' || c == '\t' || c == '\n' || c == '\r' ||
    c == Char.ofNat 11 || c == Char.ofNat 12

/-- The class `[ \t\r\n,;]` of the whitespace rule (lexer.py line 100). -/
def isSepChar (c : Char) : Bool :=
  c == ' ' || c == '\t' || c == '\r' || c == '\n' || c == ',' || c == ';'

/-- Identifier-tail class `[a-zA-Z0-9\-_]`. -/
def isIdentTail (c : Char) : Bool :=
  c.isAlphanum || c == '-' || c == '_'

/-- The class `[1-9]`. -/
def isNonzeroDigit (c : Char) : Bool :=
  c.isDigit && !(c == '0')

/-- The punctuation class of lexer.py line 127: parentheses, braces, brackets. -/
def isBracketChar (c : Char) : Bool :=
  c == '(' || c == ')' || c == Char.ofNat 123 || c == Char.ofNat 125 ||
    c == '[' || c == ']'

/-- Lookahead class of the variadic rule (lexer.py line 121). -/
def isVariadicFollow (c : Char) : Bool :=
  isPySpace c || c == ')' || c == ']' || c == Char.ofNat 125

/-- Lookahead class of the range rule (lexer.py line 122). -/
def isRangeFollow (c : Char) : Bool :=
  isPySpace c || c == ')' || c == ']' || c == Char.ofNat 125 || c.isAlphanum

/-- Word-character test on an optional character (end of input counts as
a non-word position, as in Python `\b`). -/
def isWordOpt : Option Char → Bool
  | none => false
  | some c => isWordChar c

/-- Pattern AST covering exactly the regex constructs used by the lexer. -/
inductive RPat where
  /-- A single character of a class, e.g. `[A-Z]`. -/
  | chr (p : Char → Bool)
  /-- A literal string, e.g. `::`. -/
  | lit (w : List Char)
  /-- Greedy `[...]*`. -/
  | star (p : Char → Bool)
  /-- Greedy `[...]+`. -/
  | plus (p : Char → Bool)
  /-- Greedy single-character option, e.g. `@?` or `-?`. -/
  | opt1 (p : Char → Bool)
  /-- Single-character lookahead `(?=[...])`, consumes nothing. -/
  | look (p : Char → Bool)
  /-- Word boundary `\b`, consumes nothing. -/
  | wordB
  /-- Alternation of literal words, as produced by the host's `words(...)`
  helper.  First prefix in tuple order wins; in every word set of this
  lexer no word is a proper prefix of another, so the order is
  immaterial. -/
  | wordset (ws : List (List Char))
  /-- Concatenation. -/
  | seq (a b : RPat)
  /-- Alternation `(?:A|B)`. -/
  | alt (a b : RPat)

/-- Match a word set at the start of the input: first listed word that is
a literal prefix wins, yielding its length. -/
def matchWords : List (List Char) → List Char → Option Nat
  | [], _ => none
  | w :: ws, rest => if w.isPrefixOf rest then some w.length else matchWords ws rest

/-- The character preceding the position reached after consuming `n`
characters of `rest`, given the character `prev` preceding `rest`. -/
def prevAfter (prev : Option Char) (rest : List Char) : Nat → Option Char
  | 0 => prev
  | n + 1 => rest.get? n

/-- Anchored match of a pattern at the start of `rest`; `prev` is the
character just before the match position (for `\b`).  Returns the number
of consumed characters.  Mirrors Python `re.match` for the patterns of
this lexer (see the header note on backtracking). -/
def matchPat : RPat → Option Char → List Char → Option Nat
  | .chr p, _, rest =>
    match rest with
    | c :: _ => if p c then some 1 else none
    | [] => none
  | .lit w, _, rest => if w.isPrefixOf rest then some w.length else none
  | .star p, _, rest => some (rest.takeWhile p).length
  | .plus p, _, rest =>
    match (rest.takeWhile p).length with
    | 0 => none
    | n + 1 => some (n + 1)
  | .opt1 p, _, rest =>
    match rest with
    | c :: _ => if p c then some 1 else some 0
    | [] => some 0
  | .look p, _, rest =>
    match rest with
    | c :: _ => if p c then some 0 else none
    | [] => none
  | .wordB, prev, rest =>
    if isWordOpt prev == isWordOpt rest.head? then none else some 0
  | .wordset ws, _, rest => matchWords ws rest
  | .seq a b, prev, rest =>
    (matchPat a prev rest).bind fun n1 =>
      (matchPat b (prevAfter prev rest n1) (rest.drop n1)).map fun n2 => n1 + n2
  | .alt a b, prev, rest =>
    match matchPat a prev rest with
    | some n => some n
    | none => matchPat b prev rest

/-- A scanner rule: pattern, emitted kind (always present in this lexer's
tables, `Option` per the spec's Rule record), stack action. -/
structure Rule where
  pat : RPat
  emit : Option TokenKind
  action : Action

/-- Keywords for control flow and definitions (lexer.py lines 37-47). -/
def keywordsDecl : List (List Char) :=
  ["const", "fn", "main", "meta-fn", "metafn", "modifier", "metamod",
    "type", "use"].map String.toList

/-- Type-related keywords (lexer.py lines 50-57). -/
def keywordsType : List (List Char) :=
  ["bdn_t", "fn_t", "ir_t", "opbdn_t", "opn_t", "optn_t"].map String.toList

/-- Built-in classical types (lexer.py lines 60-74). -/
def builtinTypesClassical : List (List Char) :=
  ["bool", "f32", "f64", "float", "hashmap", "i32", "i64", "imag", "int",
    "sample_t", "str", "u32", "u64"].map String.toList

/-- Built-in quantum types (lexer.py lines 77-86). -/
def builtinTypesQuantum : List (List Char) :=
  ["@bell_t", "@bool", "@false", "@int", "@true", "@u2", "@u3", "@u4"].map
    String.toList

/-- Boolean literals (lexer.py line 89). -/
def boolLiterals : List (List Char) :=
  ["false", "true"].map String.toList

/-- Quantum boolean literals (lexer.py line 92). -/
def quantumBoolLiterals : List (List Char) :=
  ["@false", "@true"].map String.toList

/-- Reserved keywords (lexer.py line 95). -/
def keywordsReserved : List (List Char) :=
  ["self"].map String.toList

/-- Integer-literal core `-?(?:[1-9]\d*|0)\b` (lexer.py lines 139 and 169;
also the tail of line 135).  The `-?` branch cannot interact with the
digit branches by backtracking since `-` is not a digit, and `\b` after a
shortened digit run always fails on the following digit, so greedy
matching is exact. -/
def intCore : RPat :=
  .seq (.opt1 (fun c => c == '-'))
    (.seq (.alt (.seq (.chr isNonzeroDigit) (.star Char.isDigit))
        (.chr (fun c => c == '0')))
      .wordB)

/-- The line-comment pattern `//[^\n]*\n` (lexer.py line 102). -/
def lineCommentPat : RPat :=
  .seq (.lit ['/', '/'])
    (.seq (.star (fun c => !(c == '\n'))) (.chr (fun c => c == '\n')))

/-- The string-literal pattern `"[^"]*"` (lexer.py line 141). -/
def stringPat : RPat :=
  .seq (.chr (fun c => c == '"'))
    (.seq (.star (fun c => !(c == '"'))) (.chr (fun c => c == '"')))

/-- Rules of the `root` state before the quantum builtin-type rule
(lexer.py lines 100-109). -/
def rootPre : List Rule :=
  [ -- line 100: r"[ \t\r\n,;]+" -> Whitespace
    ⟨.plus isSepChar, some .whitespace, .stay⟩,
    -- line 102: r"//[^\n]*\n" -> Comment.Single
    ⟨lineCommentPat, some .comment, .stay⟩,
    -- line 103: r"/\*" -> Comment.Multiline, push "comment"
    ⟨.lit ['/', '*'], some .comment, .push .comment⟩,
    -- line 105: words(keywords_decl, suffix=r"\b") -> Keyword.Declaration
    ⟨.seq (.wordset keywordsDecl) .wordB, some .keywordDeclaration, .stay⟩,
    -- line 106: words(keywords_type, suffix=r"\b") -> Keyword.Type
    ⟨.seq (.wordset keywordsType) .wordB, some .keywordType, .stay⟩,
    -- line 107: words(keywords_reserved, suffix=r"\b") -> Keyword.Reserved
    ⟨.seq (.wordset keywordsReserved) .wordB, some .keywordReserved, .stay⟩,
    -- line 109: words(builtin_types_classical, suffix=r"\b") -> Name.Builtin
    ⟨.seq (.wordset builtinTypesClassical) .wordB, some .builtinTypeClassical,
      .stay⟩ ]

/-- Line 110: words(builtin_types_quantum, suffix=r"\b") -> Name.Builtin.Quantum. -/
def qtypeRule : Rule :=
  ⟨.seq (.wordset builtinTypesQuantum) .wordB, some .builtinTypeQuantum, .stay⟩

/-- Line 112: words(bool_literals, prefix=r"\b", suffix=r"\b") -> Name.Constant. -/
def boolRule : Rule :=
  ⟨.seq .wordB (.seq (.wordset boolLiterals) .wordB), some .constantBoolean, .stay⟩

/-- Line 113: words(quantum_bool_literals, prefix=r"\b", suffix=r"\b")
-> Name.Constant.Quantum. -/
def qboolRule : Rule :=
  ⟨.seq .wordB (.seq (.wordset quantumBoolLiterals) .wordB),
    some .constantBooleanQuantum, .stay⟩

/-- Rules of the `root` state after the quantum boolean rule
(lexer.py lines 115-148). -/
def rootPost : List Rule :=
  [ -- line 115: r"::" -> Operator.Word
    ⟨.lit [':', ':'], some .operatorWord, .stay⟩,
    -- line 117: r"\*(?=\s)" -> Operator.Word
    ⟨.seq (.chr (fun c => c == '*')) (.look isPySpace), some .operatorWord, .stay⟩,
    -- line 119: r"&" -> Operator.Word
    ⟨.chr (fun c => c == '&'), some .operatorWord, .stay⟩,
    -- line 121: r"\.\.\.(?=\s|\)|\]|\})" -> Operator (variadic)
    ⟨.seq (.lit ['.', '.', '.']) (.look isVariadicFollow), some .operator, .stay⟩,
    -- line 122: r"\.\.(?=\s|\)|\]|\}|[a-zA-Z0-9])" -> Operator (range)
    ⟨.seq (.lit ['.', '.']) (.look isRangeFollow), some .operator, .stay⟩,
    -- line 123: r":" -> Operator
    ⟨.chr (fun c => c == ':'), some .operator, .stay⟩,
    -- line 124: r"=" -> Operator
    ⟨.chr (fun c => c == '='), some .operator, .stay⟩,
    -- line 125: r"\." -> Operator
    ⟨.chr (fun c => c == '.'), some .operator, .stay⟩,
    -- line 127: r"[(){}\[\]]" -> Punctuation
    ⟨.chr isBracketChar, some .punctuation, .stay⟩,
    -- line 129: r"#\[" -> Punctuation, push "trait-list"
    ⟨.lit ['#', '['], some .punctuation, .push .traitList⟩,
    -- line 130: r"#@?[A-Z][a-zA-Z0-9\-_]*" -> Name.Decorator
    ⟨.seq (.chr (fun c => c == '#'))
        (.seq (.opt1 (fun c => c == '@'))
          (.seq (.chr Char.isUpper) (.star isIdentTail))),
      some .decorator, .stay⟩,
    -- line 132: r"<" -> Punctuation, push "modifier"
    ⟨.chr (fun c => c == '<'), some .punctuation, .push .modifier⟩,
    -- line 135: r"@-?(?:[1-9]\d*|0)\b" -> Number.Quantum
    ⟨.seq (.chr (fun c => c == '@')) intCore, some .numberQuantumInteger, .stay⟩,
    -- line 137: r"-?\d+\.\d+" -> Number.Float
    ⟨.seq (.opt1 (fun c => c == '-'))
        (.seq (.plus Char.isDigit)
          (.seq (.chr (fun c => c == '.')) (.plus Char.isDigit))),
      some .numberFloat, .stay⟩,
    -- line 139: r"-?(?:[1-9]\d*|0)\b" -> Number.Integer
    ⟨intCore, some .numberInteger, .stay⟩,
    -- line 141: r'"[^"]*"' -> String
    ⟨stringPat, some .stringLiteral, .stay⟩,
    -- line 144: r"@[a-zA-Z][a-zA-Z0-9\-_]*" -> Name.Variable.Quantum
    ⟨.seq (.chr (fun c => c == '@')) (.seq (.chr Char.isAlpha) (.star isIdentTail)),
      some .identifierQuantum, .stay⟩,
    -- line 146: r"[A-Z][a-zA-Z0-9\-_]*" -> Name.Class
    ⟨.seq (.chr Char.isUpper) (.star isIdentTail), some .typeIdentifier, .stay⟩,
    -- line 148: r"[a-z][a-zA-Z0-9\-_]*" -> Name
    ⟨.seq (.chr Char.isLower) (.star isIdentTail), some .identifier, .stay⟩ ]

/-- The `root` state's ordered rule list (lexer.py lines 98-149), split
around the quantum builtin-type / boolean rules for the shadowing proof. -/
def rootRules : List Rule :=
  rootPre ++ qtypeRule :: boolRule :: qboolRule :: rootPost

/-- The `comment` state (lexer.py lines 150-155).  The `"#push"` action of
line 152 duplicates the top of the stack, which is always `comment` when
these rules are active, hence `push .comment`. -/
def commentRules : List Rule :=
  [ -- line 151: r"[^*/]" -> Comment.Multiline
    ⟨.chr (fun c => !(c == '*' || c == '/')), some .comment, .stay⟩,
    -- line 152: r"/\*" -> Comment.Multiline, "#push"
    ⟨.lit ['/', '*'], some .comment, .push .comment⟩,
    -- line 153: r"\*/" -> Comment.Multiline, "#pop"
    ⟨.lit ['*', '/'], some .comment, .pop⟩,
    -- line 154: r"[*/]" -> Comment.Multiline
    ⟨.chr (fun c => c == '*' || c == '/'), some .comment, .stay⟩ ]

/-- The `trait-list` state (lexer.py lines 156-160). -/
def traitListRules : List Rule :=
  [ -- line 157: r"\s+" -> Whitespace
    ⟨.plus isPySpace, some .whitespace, .stay⟩,
    -- line 158: r"@?[A-Z][a-zA-Z0-9\-_]*" -> Name.Decorator
    ⟨.seq (.opt1 (fun c => c == '@'))
        (.seq (.chr Char.isUpper) (.star isIdentTail)),
      some .decorator, .stay⟩,
    -- line 159: r"\]" -> Punctuation, "#pop"
    ⟨.chr (fun c => c == ']'), some .punctuation, .pop⟩ ]

/-- The `modifier` state (lexer.py lines 161-171). -/
def modifierRules : List Rule :=
  [ -- line 162: r"\s+" -> Whitespace
    ⟨.plus isPySpace, some .whitespace, .stay⟩,
    -- line 163: r"&" -> Operator.Word
    ⟨.chr (fun c => c == '&'), some .operatorWord, .stay⟩,
    -- line 164: r"\*" -> Operator.Word
    ⟨.chr (fun c => c == '*'), some .operatorWord, .stay⟩,
    -- line 165: r"\.\.\." -> Operator
    ⟨.lit ['.', '.', '.'], some .operator, .stay⟩,
    -- line 166: r":" -> Operator
    ⟨.chr (fun c => c == ':'), some .operator, .stay⟩,
    -- line 167: r"=" -> Operator
    ⟨.chr (fun c => c == '='), some .operator, .stay⟩,
    -- line 168: r"@?[a-zA-Z][a-zA-Z0-9\-_]*" -> Name.Attribute
    ⟨.seq (.opt1 (fun c => c == '@'))
        (.seq (.chr Char.isAlpha) (.star isIdentTail)),
      some .attributeName, .stay⟩,
    -- line 169: r"-?(?:[1-9]\d*|0)\b" -> Number.Integer
    ⟨intCore, some .numberInteger, .stay⟩,
    -- line 170: r">" -> Punctuation, "#pop"
    ⟨.chr (fun c => c == '>'), some .punctuation, .pop⟩ ]

/-- Rule table of each state (the `tokens` dictionary, lexer.py 97-172). -/
def stateRules : LexerState → List Rule
  | .root => rootRules
  | .comment => commentRules
  | .traitList => traitListRules
  | .modifier => modifierRules

/-- First rule of the list whose pattern matches at the cursor
(spec section 4.1 step b: declared order, first match wins). -/
def matchFirst : List Rule → Option Char → List Char → Option (Nat × Option TokenKind × Action)
  | [], _, _ => none
  | r :: rs, prev, rest =>
    match matchPat r.pat prev rest with
    | some n => some (n, r.emit, r.action)
    | none => matchFirst rs prev rest

/-- Modelled from the spec: one decision of the stepping loop (spec
section 4.1 steps b-d), which lives in the host framework rather than
under src/.  If some rule matches, its consumption, kind and action are
used; otherwise the single-character error-fallback step applies. -/
def stepConsume (rules : List Rule) (prev : Option Char) (rest : List Char) :
    Nat × Option TokenKind × Action :=
  match matchFirst rules prev rest with
  | some r => r
  | none => (1, some .errorFallback, .stay)

/-- Modelled from the spec: applying a rule's stack action (spec section
4.1 step c); popping is a no-op when only one state remains, so the
bottom `root` is never removed. -/
def applyAction (a : Action) (stack : List LexerState) : List LexerState :=
  match a with
  | .stay => stack
  | .push s => s :: stack
  | .pop =>
    match stack with
    | _ :: s2 :: rest => s2 :: rest
    | other => other

/-- Modelled from the spec: the scanning loop (spec section 4.1), which
lives in the host framework rather than under src/.  `fuel` bounds the
number of steps (each step consumes at least one character, so
`rest.length` is always enough, proved below); returns the emitted
tokens and the trace of state stacks entered. -/
def scanA : Nat → Nat → Option Char → List Char → List LexerState →
    List Token × List (List LexerState)
  | _, _, _, [], stack => ([], [stack])
  | 0, _, _, _ :: _, stack => ([], [stack])
  | fuel + 1, pos, prev, c :: rs, stack =>
    let step := stepConsume (stateRules (stack.headD .root)) prev (c :: rs)
    let txt := (c :: rs).take step.1
    let next := scanA fuel (pos + step.1) (prevAfter prev (c :: rs) step.1)
      ((c :: rs).drop step.1) (applyAction step.2.2 stack)
    ((match step.2.1 with
      | some k => [⟨k, txt, pos, pos + step.1⟩]
      | none => []) ++ next.1,
      stack :: next.2)

/-- The tokenizer: scan the whole input starting in `root`
(spec section 4.1 contract). -/
def tokenize (s : String) : List Token :=
  (scanA s.toList.length 0 none s.toList [.root]).1

/-- The state stacks traversed while tokenizing `s`, in order. -/
def tokenizeStacks (s : String) : List (List LexerState) :=
  (scanA s.toList.length 0 none s.toList [.root]).2

/-! ### Elementary facts about prefixes and character runs -/

@[simp] lemma isPrefixOf_nil_left (l : List Char) :
    List.isPrefixOf [] l = true := by cases l <;> rfl

@[simp] lemma isPrefixOf_cons_nil (a : Char) (as : List Char) :
    List.isPrefixOf (a :: as) [] = false := rfl

@[simp] lemma isPrefixOf_cons_cons (a b : Char) (as bs : List Char) :
    List.isPrefixOf (a :: as) (b :: bs) = (a == b && List.isPrefixOf as bs) := rfl

lemma isPrefixOf_length {w l : List Char} (h : w.isPrefixOf l = true) :
    w.length ≤ l.length := by
  induction w generalizing l with
  | nil => simp
  | cons a as ih =>
    cases l with
    | nil => simp at h
    | cons b bs =>
      simp only [isPrefixOf_cons_cons, Bool.and_eq_true] at h
      simpa using ih h.2

lemma isPrefixOf_append {w l : List Char} (h : w.isPrefixOf l = true) :
    ∃ t, l = w ++ t := by
  induction w generalizing l with
  | nil => exact ⟨l, rfl⟩
  | cons a as ih =>
    cases l with
    | nil => simp at h
    | cons b bs =>
      simp only [isPrefixOf_cons_cons, Bool.and_eq_true, beq_iff_eq] at h
      obtain ⟨t, ht⟩ := ih h.2
      exact ⟨t, by simp [h.1, ht]⟩

/-- Two prefixes of the same list are comparable. -/
lemma prefix_total {w1 w2 l : List Char} (h1 : w1.isPrefixOf l = true)
    (h2 : w2.isPrefixOf l = true) :
    w1.isPrefixOf w2 = true ∨ w2.isPrefixOf w1 = true := by
  induction l generalizing w1 w2 with
  | nil =>
    cases w1 with
    | nil => left; simp
    | cons a as => simp at h1
  | cons c t ih =>
    cases w1 with
    | nil => left; simp
    | cons a as =>
      cases w2 with
      | nil => right; simp
      | cons b bs =>
        simp only [isPrefixOf_cons_cons, Bool.and_eq_true, beq_iff_eq] at *
        rcases ih h1.2 h2.2 with h | h
        · exact Or.inl ⟨h1.1.trans h2.1.symm, h⟩
        · exact Or.inr ⟨h2.1.trans h1.1.symm, h⟩

lemma takeWhileLen_le (p : Char → Bool) (l : List Char) :
    (l.takeWhile p).length ≤ l.length := by
  induction l with
  | nil => simp
  | cons c t ih =>
    by_cases h : p c
    · simp only [List.takeWhile_cons, if_pos h, List.length_cons]
      omega
    · simp [List.takeWhile_cons, h]

/-! ### Bounds and head-gating facts for the pattern matcher -/

lemma matchWords_elim {ws : List (List Char)} {rest : List Char} {n : Nat}
    (h : matchWords ws rest = some n) :
    ∃ w, w ∈ ws ∧ w.isPrefixOf rest = true ∧ n = w.length := by
  induction ws with
  | nil => simp [matchWords] at h
  | cons w t ih =>
    simp only [matchWords] at h
    by_cases hp : w.isPrefixOf rest = true
    · rw [if_pos hp] at h
      exact ⟨w, by simp, hp, (Option.some.inj h).symm⟩
    · rw [if_neg hp] at h
      obtain ⟨w2, hw2, hpre, hn⟩ := ih h
      exact ⟨w2, by simp [hw2], hpre, hn⟩

/-- If `w` is a prefix of `rest`, belongs to the word set, and is the only
member that is a prefix of `rest`, the word-set matcher returns its length. -/
lemma matchWords_unique {ws : List (List Char)} {rest w : List Char}
    (hw : w ∈ ws) (hpre : w.isPrefixOf rest = true)
    (H : ∀ a ∈ ws, a.isPrefixOf rest = true → a = w) :
    matchWords ws rest = some w.length := by
  induction ws with
  | nil => simp at hw
  | cons w1 t ih =>
    by_cases hp1 : w1.isPrefixOf rest = true
    · have e : w1 = w := H w1 (by simp) hp1
      subst e
      simp only [matchWords]
      rw [if_pos hp1]
    · have hwt : w ∈ t := by
        rcases List.mem_cons.mp hw with rfl | h
        · exact absurd hpre hp1
        · exact h
      have := ih hwt (fun a ha hp => H a (by simp [ha]) hp)
      simp only [matchWords]
      rw [if_neg hp1]
      exact this

lemma matchPat_le {p : RPat} {prev : Option Char} {rest : List Char} {n : Nat}
    (h : matchPat p prev rest = some n) : n ≤ rest.length := by
  induction p generalizing prev rest n with
  | chr q =>
    cases rest with
    | nil => simp [matchPat] at h
    | cons c t =>
      simp only [matchPat] at h
      by_cases hq : q c = true
      · rw [if_pos hq] at h
        obtain rfl := Option.some.inj h
        have : (c :: t).length = t.length + 1 := rfl
        omega
      · rw [if_neg hq] at h
        exact absurd h (by simp)
  | lit w =>
    simp only [matchPat] at h
    by_cases hp : w.isPrefixOf rest = true
    · rw [if_pos hp] at h
      obtain rfl := Option.some.inj h
      exact isPrefixOf_length hp
    · rw [if_neg hp] at h
      exact absurd h (by simp)
  | star q =>
    simp only [matchPat, Option.some_inj] at h
    subst h
    exact takeWhileLen_le q rest
  | plus q =>
    have hle := takeWhileLen_le q rest
    simp only [matchPat] at h
    rcases hE : (rest.takeWhile q).length with _ | m <;> rw [hE] at h
    · exact absurd h (by simp)
    · obtain rfl := Option.some.inj h
      omega
  | opt1 q =>
    cases rest with
    | nil =>
      simp only [matchPat] at h
      obtain rfl := Option.some.inj h
      simp
    | cons c t =>
      simp only [matchPat] at h
      by_cases hq : q c = true
      · rw [if_pos hq] at h
        obtain rfl := Option.some.inj h
        have : (c :: t).length = t.length + 1 := rfl
        omega
      · rw [if_neg hq] at h
        obtain rfl := Option.some.inj h
        simp
  | look q =>
    cases rest with
    | nil => simp [matchPat] at h
    | cons c t =>
      simp only [matchPat] at h
      by_cases hq : q c = true
      · rw [if_pos hq] at h
        obtain rfl := Option.some.inj h
        simp
      · rw [if_neg hq] at h
        exact absurd h (by simp)
  | wordB =>
    simp only [matchPat] at h
    split at h
    · exact absurd h (by simp)
    · obtain rfl := Option.some.inj h
      simp
  | wordset ws =>
    obtain ⟨w, _, hpre, hn⟩ := matchWords_elim h
    have := isPrefixOf_length hpre
    omega
  | seq a b iha ihb =>
    simp only [matchPat, Option.bind_eq_some, Option.map_eq_some'] at h
    obtain ⟨n1, h1, n2, h2, rfl⟩ := h
    have ha := iha h1
    have hb := ihb h2
    simp only [List.length_drop] at hb
    omega
  | alt a b iha ihb =>
    simp only [matchPat] at h
    rcases h1 : matchPat a prev rest with _ | n1 <;> rw [h1] at h
    · exact ihb h
    · obtain rfl := Option.some.inj h
      exact iha h1

/-- Syntactic check that every successful match of a pattern consumes at
least one character. -/
def posPat : RPat → Bool
  | .chr _ => true
  | .lit w => !w.isEmpty
  | .star _ => false
  | .plus _ => true
  | .opt1 _ => false
  | .look _ => false
  | .wordB => false
  | .wordset ws => ws.all fun w => !w.isEmpty
  | .seq a b => posPat a || posPat b
  | .alt a b => posPat a && posPat b

lemma matchPat_pos {p : RPat} {prev : Option Char} {rest : List Char} {n : Nat}
    (hp : posPat p = true) (h : matchPat p prev rest = some n) : 1 ≤ n := by
  induction p generalizing prev rest n with
  | chr q =>
    cases rest with
    | nil => simp [matchPat] at h
    | cons c t =>
      simp only [matchPat] at h
      by_cases hq : q c = true
      · rw [if_pos hq] at h
        obtain rfl := Option.some.inj h
        omega
      · rw [if_neg hq] at h
        exact absurd h (by simp)
  | lit w =>
    simp only [matchPat] at h
    by_cases hpre : w.isPrefixOf rest = true
    · rw [if_pos hpre] at h
      obtain rfl := Option.some.inj h
      simp only [posPat, Bool.not_eq_true'] at hp
      cases w with
      | nil => simp [List.isEmpty] at hp
      | cons a as => simp
    · rw [if_neg hpre] at h
      exact absurd h (by simp)
  | star q => simp [posPat] at hp
  | plus q =>
    simp only [matchPat] at h
    rcases hE : (rest.takeWhile q).length with _ | m <;> rw [hE] at h
    · exact absurd h (by simp)
    · obtain rfl := Option.some.inj h
      omega
  | opt1 q => simp [posPat] at hp
  | look q => simp [posPat] at hp
  | wordB => simp [posPat] at hp
  | wordset ws =>
    obtain ⟨w, hw, _, hn⟩ := matchWords_elim h
    simp only [posPat, List.all_eq_true] at hp
    have := hp w hw
    simp only [Bool.not_eq_true'] at this
    cases w with
    | nil => simp [List.isEmpty] at this
    | cons a as => simp [hn]
  | seq a b iha ihb =>
    simp only [matchPat, Option.bind_eq_some, Option.map_eq_some'] at h
    obtain ⟨n1, h1, n2, h2, rfl⟩ := h
    simp only [posPat, Bool.or_eq_true] at hp
    rcases hp with hp | hp
    · have := iha hp h1; omega
    · have := ihb hp h2; omega
  | alt a b iha ihb =>
    simp only [posPat, Bool.and_eq_true] at hp
    simp only [matchPat] at h
    rcases h1 : matchPat a prev rest with _ | n1 <;> rw [h1] at h
    · exact ihb hp.2 h
    · obtain rfl := Option.some.inj h
      exact iha hp.1 h1

/-- Syntactic check that, on an input whose first character is `h`, every
successful match of the pattern consumes exactly zero characters. -/
def zeroOnlyAt : RPat → Option Char → Bool
  | .chr _, _ => false
  | .lit w, _ => w.isEmpty
  | .star q, h => match h with | some c => !q c | none => true
  | .plus _, _ => false
  | .opt1 q, h => match h with | some c => !q c | none => true
  | .look _, _ => true
  | .wordB, _ => true
  | .wordset _, _ => false
  | .seq a b, h => zeroOnlyAt a h && zeroOnlyAt b h
  | .alt a b, h => zeroOnlyAt a h && zeroOnlyAt b h

lemma zeroOnlyAt_sound {p : RPat} {prev : Option Char} {rest : List Char} {n : Nat}
    (hz : zeroOnlyAt p rest.head? = true) (h : matchPat p prev rest = some n) :
    n = 0 := by
  induction p generalizing prev rest n with
  | chr q => simp [zeroOnlyAt] at hz
  | lit w =>
    simp only [zeroOnlyAt] at hz
    cases w with
    | nil =>
      simp only [matchPat] at h
      rw [if_pos (isPrefixOf_nil_left rest)] at h
      exact (Option.some.inj h).symm
    | cons a as => simp [List.isEmpty] at hz
  | star q =>
    simp only [matchPat, Option.some_inj] at h
    subst h
    cases rest with
    | nil => rfl
    | cons c t =>
      simp only [zeroOnlyAt, List.head?_cons, Bool.not_eq_true'] at hz
      simp [List.takeWhile_cons, hz]
  | plus q => simp [zeroOnlyAt] at hz
  | opt1 q =>
    cases rest with
    | nil =>
      simp only [matchPat] at h
      exact (Option.some.inj h).symm
    | cons c t =>
      simp only [zeroOnlyAt, List.head?_cons, Bool.not_eq_true'] at hz
      simp only [matchPat] at h
      rw [if_neg (by simp [hz])] at h
      exact (Option.some.inj h).symm
  | look q =>
    cases rest with
    | nil => simp [matchPat] at h
    | cons c t =>
      simp only [matchPat] at h
      by_cases hq : q c = true
      · rw [if_pos hq] at h
        exact (Option.some.inj h).symm
      · rw [if_neg hq] at h
        exact absurd h (by simp)
  | wordB =>
    simp only [matchPat] at h
    split at h
    · exact absurd h (by simp)
    · exact (Option.some.inj h).symm
  | wordset ws => simp [zeroOnlyAt] at hz
  | seq a b iha ihb =>
    simp only [zeroOnlyAt, Bool.and_eq_true] at hz
    simp only [matchPat, Option.bind_eq_some, Option.map_eq_some'] at h
    obtain ⟨n1, h1, n2, h2, rfl⟩ := h
    obtain rfl := iha hz.1 h1
    rw [List.drop_zero] at h2
    obtain rfl := ihb hz.2 h2
    rfl
  | alt a b iha ihb =>
    simp only [zeroOnlyAt, Bool.and_eq_true] at hz
    simp only [matchPat] at h
    rcases h1 : matchPat a prev rest with _ | n1 <;> rw [h1] at h
    · exact ihb hz.2 h
    · obtain rfl := Option.some.inj h
      exact iha hz.1 h1

/-- Syntactic necessary condition for a pattern to match an input whose
first character is `h` (`none` meaning empty input). -/
def canStart : RPat → Option Char → Bool
  | .chr q, h => match h with | some c => q c | none => false
  | .lit w, h =>
    match w with
    | [] => true
    | w0 :: _ => match h with | some c => w0 == c | none => false
  | .star _, _ => true
  | .plus q, h => match h with | some c => q c | none => false
  | .opt1 _, _ => true
  | .look q, h => match h with | some c => q c | none => false
  | .wordB, _ => true
  | .wordset ws, h =>
    ws.any fun w =>
      match w with
      | [] => true
      | w0 :: _ => match h with | some c => w0 == c | none => false
  | .seq a b, h => canStart a h && (!zeroOnlyAt a h || canStart b h)
  | .alt a b, h => canStart a h || canStart b h

lemma canStart_sound {p : RPat} {prev : Option Char} {rest : List Char} {n : Nat}
    (h : matchPat p prev rest = some n) : canStart p rest.head? = true := by
  induction p generalizing prev rest n with
  | chr q =>
    cases rest with
    | nil => simp [matchPat] at h
    | cons c t =>
      simp only [matchPat] at h
      by_cases hq : q c = true
      · simp [canStart, hq]
      · rw [if_neg hq] at h
        exact absurd h (by simp)
  | lit w =>
    simp only [matchPat] at h
    by_cases hpre : w.isPrefixOf rest = true
    · cases w with
      | nil => simp [canStart]
      | cons w0 wt =>
        cases rest with
        | nil => simp at hpre
        | cons c t =>
          simp only [isPrefixOf_cons_cons, Bool.and_eq_true] at hpre
          simp [canStart, hpre.1]
    · rw [if_neg hpre] at h
      exact absurd h (by simp)
  | star q => simp [canStart]
  | plus q =>
    cases rest with
    | nil => simp [matchPat] at h
    | cons c t =>
      simp only [matchPat] at h
      by_cases hq : q c = true
      · simp [canStart, hq]
      · rw [show ((c :: t).takeWhile q).length = 0 by simp [List.takeWhile_cons, hq]] at h
        exact absurd h (by simp)
  | opt1 q => simp [canStart]
  | look q =>
    cases rest with
    | nil => simp [matchPat] at h
    | cons c t =>
      simp only [matchPat] at h
      by_cases hq : q c = true
      · simp [canStart, hq]
      · rw [if_neg hq] at h
        exact absurd h (by simp)
  | wordB => simp [canStart]
  | wordset ws =>
    obtain ⟨w, hw, hpre, _⟩ := matchWords_elim h
    simp only [canStart, List.any_eq_true]
    refine ⟨w, hw, ?_⟩
    cases w with
    | nil => rfl
    | cons w0 wt =>
      cases rest with
      | nil => simp at hpre
      | cons c t =>
        simp only [isPrefixOf_cons_cons, Bool.and_eq_true] at hpre
        simp [hpre.1]
  | seq a b iha ihb =>
    simp only [matchPat, Option.bind_eq_some, Option.map_eq_some'] at h
    obtain ⟨n1, h1, n2, h2, rfl⟩ := h
    simp only [canStart, Bool.and_eq_true, Bool.or_eq_true]
    refine ⟨iha h1, ?_⟩
    by_cases hz : zeroOnlyAt a rest.head? = true
    · obtain rfl := zeroOnlyAt_sound hz h1
      rw [List.drop_zero] at h2
      exact Or.inr (ihb h2)
    · exact Or.inl (by simp [hz])
  | alt a b iha ihb =>
    simp only [matchPat] at h
    simp only [canStart, Bool.or_eq_true]
    rcases h1 : matchPat a prev rest with _ | n1 <;> rw [h1] at h
    · exact Or.inr (ihb h)
    · exact Or.inl (iha h1)

lemma matchPat_none_of_canStart {p : RPat} {rest : List Char}
    (h : canStart p rest.head? = false) (prev : Option Char) :
    matchPat p prev rest = none := by
  cases hm : matchPat p prev rest with
  | none => rfl
  | some n => exact absurd (canStart_sound hm) (by simp [h])

/-- Variant of `matchPat_none_of_canStart` with the first input character
exposed, so the gating condition is a closed computation. -/
lemma matchPat_none_of_canStart_cons {p : RPat} {c : Char} (rs : List Char)
    (h : canStart p (some c) = false) (prev : Option Char) :
    matchPat p prev (c :: rs) = none :=
  matchPat_none_of_canStart h prev

/-! ### Facts about first-match rule selection -/

lemma matchFirst_append (l1 l2 : List Rule) (prev : Option Char) (rest : List Char) :
    matchFirst (l1 ++ l2) prev rest =
      match matchFirst l1 prev rest with
      | some x => some x
      | none => matchFirst l2 prev rest := by
  induction l1 with
  | nil => simp [matchFirst]
  | cons r t ih =>
    simp only [List.cons_append, matchFirst]
    cases matchPat r.pat prev rest <;> simp [ih]

lemma matchFirst_all_none {l : List Rule} {prev : Option Char} {rest : List Char}
    (H : ∀ r ∈ l, matchPat r.pat prev rest = none) :
    matchFirst l prev rest = none := by
  induction l with
  | nil => rfl
  | cons r t ih =>
    simp only [matchFirst, H r (by simp)]
    exact ih fun r2 h2 => H r2 (by simp [h2])

lemma matchFirst_emit_mem {l : List Rule} {prev : Option Char} {rest : List Char}
    {n : Nat} {e : Option TokenKind} {a : Action}
    (h : matchFirst l prev rest = some (n, e, a)) :
    ∃ r ∈ l, r.emit = e ∧ r.action = a ∧ matchPat r.pat prev rest = some n := by
  induction l with
  | nil => simp [matchFirst] at h
  | cons r t ih =>
    simp only [matchFirst] at h
    rcases h1 : matchPat r.pat prev rest with _ | n1 <;> rw [h1] at h
    · obtain ⟨r2, hm, he, ha, hp⟩ := ih h
      exact ⟨r2, by simp [hm], he, ha, hp⟩
    · obtain ⟨rfl, rfl, rfl⟩ : n1 = n ∧ r.emit = e ∧ r.action = a := by
        have := Option.some.inj h
        exact ⟨congrArg Prod.fst this, congrArg (fun x => x.2.1) this,
          congrArg (fun x => x.2.2) this⟩
      exact ⟨r, by simp, rfl, rfl, h1⟩

/-! ### Table-level facts and the stepping lemma -/

/-- Every rule of every state consumes at least one character on a
successful match and always emits a token (every tuple of the source's
`tokens` tables carries a token type). -/
lemma tableOK (s : LexerState) :
    ((stateRules s).all fun r => posPat r.pat && r.emit.isSome) = true := by
  cases s <;> rfl

lemma stepConsume_spec {rules : List Rule}
    (hok : (rules.all fun r => posPat r.pat && r.emit.isSome) = true)
    (prev : Option Char) (c : Char) (rs : List Char) :
    1 ≤ (stepConsume rules prev (c :: rs)).1 ∧
      (stepConsume rules prev (c :: rs)).1 ≤ (c :: rs).length ∧
      (stepConsume rules prev (c :: rs)).2.1.isSome = true := by
  unfold stepConsume
  cases hm : matchFirst rules prev (c :: rs) with
  | none =>
    refine ⟨le_refl 1, ?_, rfl⟩
    show (1 : Nat) ≤ (c :: rs).length
    have : (c :: rs).length = rs.length + 1 := rfl
    omega
  | some x =>
    obtain ⟨n, e, a⟩ := x
    obtain ⟨r, hr, he, _, hp⟩ := matchFirst_emit_mem hm
    have hall := List.all_eq_true.mp hok r hr
    simp only [Bool.and_eq_true] at hall
    exact ⟨matchPat_pos hall.1 hp, matchPat_le hp, by rw [← he]; exact hall.2⟩

/-- Contiguity of a token run: starting at offset `a`, each token starts
where the previous one ended, its span length equals its text length, and
the run ends exactly at offset `b`. -/
def Chain : Nat → List Token → Nat → Prop
  | a, [], b => a = b
  | a, t :: ts, b => t.startOff = a ∧ t.endOff = a + t.text.length ∧ Chain t.endOff ts b

/-- One unfolding of the scanner on a nonempty input, given the step
decision. -/
lemma scanA_cons {f pos : Nat} {prev : Option Char} {c : Char} {rs : List Char}
    {stack : List LexerState} {n : Nat} {k : TokenKind} {a : Action}
    (hsc : stepConsume (stateRules (stack.headD .root)) prev (c :: rs) = (n, some k, a)) :
    scanA (f + 1) pos prev (c :: rs) stack =
      (⟨k, (c :: rs).take n, pos, pos + n⟩ ::
        (scanA f (pos + n) (prevAfter prev (c :: rs) n) ((c :: rs).drop n)
          (applyAction a stack)).1,
        stack :: (scanA f (pos + n) (prevAfter prev (c :: rs) n) ((c :: rs).drop n)
          (applyAction a stack)).2) := by
  simp only [scanA, hsc, List.singleton_append]

/-- Core induction: with enough fuel, the scanner's tokens concatenate to
the remaining input, chain contiguously from the current offset to the end
offset, and number at most the remaining length. -/
lemma scanA_cover (fuel : Nat) :
    ∀ (pos : Nat) (prev : Option Char) (rest : List Char) (stack : List LexerState),
      rest.length ≤ fuel →
      ((scanA fuel pos prev rest stack).1.map Token.text).flatten = rest ∧
        Chain pos (scanA fuel pos prev rest stack).1 (pos + rest.length) ∧
        (scanA fuel pos prev rest stack).1.length ≤ rest.length := by
  induction fuel with
  | zero =>
    intro pos prev rest stack hle
    obtain rfl : rest = [] := List.eq_nil_of_length_eq_zero (Nat.le_zero.mp hle)
    simp [scanA, Chain]
  | succ f ih =>
    intro pos prev rest stack hle
    cases rest with
    | nil => simp [scanA, Chain]
    | cons c rs =>
      have hcs := stepConsume_spec (tableOK (stack.headD .root)) prev c rs
      rcases hsc : stepConsume (stateRules (stack.headD .root)) prev (c :: rs)
        with ⟨n, e, a⟩
      rw [hsc] at hcs
      obtain ⟨h1, h2, h3⟩ := hcs
      rcases e with _ | k
      · simp at h3
      have hclen : (c :: rs).length = rs.length + 1 := rfl
      have hlen : ((c :: rs).drop n).length = (c :: rs).length - n := by
        simp [List.length_drop]
      have hfuel : ((c :: rs).drop n).length ≤ f := by omega
      have ihx := ih (pos + n) (prevAfter prev (c :: rs) n) ((c :: rs).drop n)
        (applyAction a stack) hfuel
      have htake : ((c :: rs).take n).length = n := by
        rw [List.length_take]
        omega
      rw [scanA_cons hsc]
      refine ⟨?_, ?_, ?_⟩
      · simp only [List.map_cons, List.flatten_cons]
        rw [ihx.1, List.take_append_drop]
      · refine ⟨rfl, by rw [htake], ?_⟩
        have hch := ihx.2.1
        have : pos + n + ((c :: rs).drop n).length = pos + (c :: rs).length := by
          omega
        rw [this] at hch
        exact hch
      · have := ihx.2.2
        simp only [List.length_cons]
        omega

/-! ### Fuel irrelevance: the scanner finishes within `length` steps -/

lemma scanA_nil (fuel pos : Nat) (prev : Option Char) (stack : List LexerState) :
    scanA fuel pos prev [] stack = ([], [stack]) := by
  cases fuel <;> rfl

lemma scanA_fuel (fuel : Nat) :
    ∀ (pos : Nat) (prev : Option Char) (rest : List Char) (stack : List LexerState),
      rest.length ≤ fuel →
      scanA fuel pos prev rest stack = scanA rest.length pos prev rest stack := by
  induction fuel using Nat.strong_induction_on with
  | _ fuel ihf =>
    intro pos prev rest stack hle
    cases rest with
    | nil => rw [scanA_nil, scanA_nil]
    | cons c rs =>
      cases fuel with
      | zero => exact absurd hle (by simp)
      | succ f =>
        have hcs := stepConsume_spec (tableOK (stack.headD .root)) prev c rs
        rcases hsc : stepConsume (stateRules (stack.headD .root)) prev (c :: rs)
          with ⟨n, e, a⟩
        rw [hsc] at hcs
        obtain ⟨h1, h2, h3⟩ := hcs
        rcases e with _ | k
        · simp at h3
        have hclen : (c :: rs).length = rs.length + 1 := rfl
        have hdlen : ((c :: rs).drop n).length = (c :: rs).length - n := by
          simp [List.length_drop]
        rw [scanA_cons hsc, show (c :: rs).length = rs.length + 1 from rfl,
          scanA_cons hsc]
        have e1 := ihf f (by omega) (pos + n) (prevAfter prev (c :: rs) n)
          ((c :: rs).drop n) (applyAction a stack) (by omega)
        have e2 := ihf rs.length (by omega) (pos + n) (prevAfter prev (c :: rs) n)
          ((c :: rs).drop n) (applyAction a stack) (by omega)
        rw [e1, e2]

/-! ### The state-stack invariant -/

lemma applyAction_keep {stack : List LexerState} (a : Action)
    (hne : stack ≠ []) (hb : stack.getLast? = some .root) :
    applyAction a stack ≠ [] ∧ (applyAction a stack).getLast? = some .root := by
  cases a with
  | stay => exact ⟨hne, hb⟩
  | push s =>
    cases stack with
    | nil => exact absurd rfl hne
    | cons s1 t =>
      exact ⟨by simp [applyAction], by rw [applyAction, List.getLast?_cons_cons]; exact hb⟩
  | pop =>
    cases stack with
    | nil => exact absurd rfl hne
    | cons s1 t =>
      cases t with
      | nil => exact ⟨hne, hb⟩
      | cons s2 t2 =>
        refine ⟨by simp [applyAction], ?_⟩
        rw [List.getLast?_cons_cons] at hb
        exact hb

lemma scanA_stacks (fuel : Nat) :
    ∀ (pos : Nat) (prev : Option Char) (rest : List Char) (stack : List LexerState),
      stack ≠ [] → stack.getLast? = some .root →
      ∀ st ∈ (scanA fuel pos prev rest stack).2, st ≠ [] ∧ st.getLast? = some .root := by
  induction fuel with
  | zero =>
    intro pos prev rest stack hne hb st hst
    cases rest with
    | nil =>
      rw [scanA_nil] at hst
      obtain rfl : st = stack := by simpa using hst
      exact ⟨hne, hb⟩
    | cons c rs =>
      obtain rfl : st = stack := by simpa [scanA] using hst
      exact ⟨hne, hb⟩
  | succ f ih =>
    intro pos prev rest stack hne hb st hst
    cases rest with
    | nil =>
      rw [scanA_nil] at hst
      obtain rfl : st = stack := by simpa using hst
      exact ⟨hne, hb⟩
    | cons c rs =>
      have hcs := stepConsume_spec (tableOK (stack.headD .root)) prev c rs
      rcases hsc : stepConsume (stateRules (stack.headD .root)) prev (c :: rs)
        with ⟨n, e, a⟩
      rw [hsc] at hcs
      rcases e with _ | k
      · simp at hcs
      rw [scanA_cons hsc] at hst
      simp only [List.mem_cons] at hst
      rcases hst with rfl | hst
      · exact ⟨hne, hb⟩
      · obtain ⟨hne2, hb2⟩ := applyAction_keep a hne hb
        exact ih _ _ _ _ hne2 hb2 st hst

/-! ### The quantum boolean-literal rule is shadowed -/

lemma wordB_zero {prev : Option Char} {rest : List Char} {n : Nat}
    (h : matchPat .wordB prev rest = some n) : n = 0 :=
  zeroOnlyAt_sound (show zeroOnlyAt .wordB rest.head? = true from rfl) h

/-- Any match of the quantum boolean-literal rule's pattern (lexer.py
line 113) is also a match, of the same length, of the quantum
builtin-type rule's pattern (line 110): `@false` and `@true` are both
members of `builtin_types_quantum`, both patterns end in `\b`, and the
boolean pattern merely adds a leading `\b`. -/
lemma matchPat_seq_elim {a b : RPat} {prev : Option Char} {rest : List Char}
    {n : Nat} (h : matchPat (.seq a b) prev rest = some n) :
    ∃ n1 n2, matchPat a prev rest = some n1 ∧
      matchPat b (prevAfter prev rest n1) (rest.drop n1) = some n2 ∧ n = n1 + n2 := by
  simp only [matchPat, Option.bind_eq_some, Option.map_eq_some'] at h
  obtain ⟨n1, h1, n2, h2, rfl⟩ := h
  exact ⟨n1, n2, h1, h2, rfl⟩

lemma matchPat_seq_intro {a b : RPat} {prev : Option Char} {rest : List Char}
    {n1 n2 : Nat} (h1 : matchPat a prev rest = some n1)
    (h2 : matchPat b (prevAfter prev rest n1) (rest.drop n1) = some n2) :
    matchPat (.seq a b) prev rest = some (n1 + n2) := by
  simp [matchPat, h1, h2]

lemma qbool_implies_qtype {prev : Option Char} {rest : List Char} {n : Nat}
    (h : matchPat qboolRule.pat prev rest = some n) :
    matchPat qtypeRule.pat prev rest = some n := by
  rw [show qboolRule.pat = .seq .wordB (.seq (.wordset quantumBoolLiterals) .wordB)
    from rfl] at h
  obtain ⟨n1, n2, hb1, hin, rfl⟩ := matchPat_seq_elim h
  obtain rfl := wordB_zero hb1
  rw [show prevAfter prev rest 0 = prev from rfl, List.drop_zero] at hin
  obtain ⟨m, z, hws0, hb2, rfl⟩ := matchPat_seq_elim hin
  have hws : matchWords quantumBoolLiterals rest = some m := hws0
  obtain rfl := wordB_zero hb2
  obtain ⟨w, hw, hpre, rfl⟩ := matchWords_elim hws
  have hwqt : w ∈ builtinTypesQuantum := by
    simp only [quantumBoolLiterals, List.map_cons, List.map_nil, List.mem_cons,
      List.not_mem_nil, or_false] at hw
    rcases hw with rfl | rfl <;> decide
  have huniq : ∀ a ∈ builtinTypesQuantum, a.isPrefixOf rest = true → a = w := by
    intro a ha hapre
    simp only [quantumBoolLiterals, List.map_cons, List.map_nil, List.mem_cons,
      List.not_mem_nil, or_false] at hw
    simp only [builtinTypesQuantum, List.map_cons, List.map_nil, List.mem_cons,
      List.not_mem_nil, or_false] at ha
    rcases hw with rfl | rfl <;>
      rcases ha with rfl | rfl | rfl | rfl | rfl | rfl | rfl | rfl <;>
      first
        | rfl
        | (rcases prefix_total hapre hpre with hc | hc <;> exact absurd hc (by decide))
  have hqt : matchPat (.wordset builtinTypesQuantum) prev rest = some w.length :=
    matchWords_unique hwqt hpre huniq
  rw [show qtypeRule.pat = .seq (.wordset builtinTypesQuantum) .wordB from rfl]
  have := matchPat_seq_intro hqt hb2
  simpa using this

lemma matchFirst_cons_some {r : Rule} {l : List Rule} {prev : Option Char}
    {rest : List Char} {n : Nat} (hm : matchPat r.pat prev rest = some n) :
    matchFirst (r :: l) prev rest = some (n, r.emit, r.action) := by
  simp [matchFirst, hm]

lemma matchFirst_cons_none {r : Rule} {l : List Rule} {prev : Option Char}
    {rest : List Char} (hm : matchPat r.pat prev rest = none) :
    matchFirst (r :: l) prev rest = matchFirst l prev rest := by
  simp [matchFirst, hm]

lemma matchFirst_no_cbq_of_table {l : List Rule} {prev : Option Char}
    {rest : List Char} {n : Nat} {e : Option TokenKind} {a : Action}
    (h : matchFirst l prev rest = some (n, e, a))
    (hall : (l.all fun r => !(r.emit == some TokenKind.constantBooleanQuantum)) = true) :
    e ≠ some .constantBooleanQuantum := by
  obtain ⟨r, hr, he, _, _⟩ := matchFirst_emit_mem h
  have hx := List.all_eq_true.mp hall r hr
  intro hc
  rw [he, hc] at hx
  exact absurd hx (by decide)

/-- The root state never selects the quantum boolean-literal kind: every
other rule has a different kind, and whenever the quantum boolean rule
matches, the earlier quantum builtin-type rule already matched. -/
lemma matchFirst_root_no_cbq {prev : Option Char} {rest : List Char}
    {n : Nat} {e : Option TokenKind} {a : Action}
    (h : matchFirst rootRules prev rest = some (n, e, a)) :
    e ≠ some .constantBooleanQuantum := by
  unfold rootRules at h
  rw [matchFirst_append] at h
  cases hpre : matchFirst rootPre prev rest with
  | some x =>
    rw [hpre] at h
    obtain rfl : x = (n, e, a) := Option.some.inj h
    exact matchFirst_no_cbq_of_table hpre rfl
  | none =>
    rw [hpre] at h
    cases hqt : matchPat qtypeRule.pat prev rest with
    | some m =>
      rw [matchFirst_cons_some hqt] at h
      have he : e = qtypeRule.emit :=
        (congrArg (fun x => x.2.1) (Option.some.inj h)).symm
      rw [he]
      decide
    | none =>
      rw [matchFirst_cons_none hqt] at h
      cases hbl : matchPat boolRule.pat prev rest with
      | some m =>
        rw [matchFirst_cons_some hbl] at h
        have he : e = boolRule.emit :=
          (congrArg (fun x => x.2.1) (Option.some.inj h)).symm
        rw [he]
        decide
      | none =>
        rw [matchFirst_cons_none hbl] at h
        cases hqb : matchPat qboolRule.pat prev rest with
        | some m => exact absurd (qbool_implies_qtype hqb) (by simp [hqt])
        | none =>
          rw [matchFirst_cons_none hqb] at h
          exact matchFirst_no_cbq_of_table h rfl

lemma stepConsume_no_cbq (s : LexerState) (prev : Option Char) (rest : List Char) :
    (stepConsume (stateRules s) prev rest).2.1 ≠ some .constantBooleanQuantum := by
  unfold stepConsume
  cases hm : matchFirst (stateRules s) prev rest with
  | none => decide
  | some x =>
    obtain ⟨n, e, a⟩ := x
    show e ≠ some .constantBooleanQuantum
    cases s with
    | root => exact matchFirst_root_no_cbq hm
    | comment => exact matchFirst_no_cbq_of_table hm rfl
    | traitList => exact matchFirst_no_cbq_of_table hm rfl
    | modifier => exact matchFirst_no_cbq_of_table hm rfl

lemma scanA_no_cbq (fuel : Nat) :
    ∀ (pos : Nat) (prev : Option Char) (rest : List Char) (stack : List LexerState),
      ∀ t ∈ (scanA fuel pos prev rest stack).1, t.kind ≠ .constantBooleanQuantum := by
  induction fuel with
  | zero =>
    intro pos prev rest stack t ht
    cases rest with
    | nil => rw [scanA_nil] at ht; simp at ht
    | cons c rs => simp [scanA] at ht
  | succ f ih =>
    intro pos prev rest stack t ht
    cases rest with
    | nil => rw [scanA_nil] at ht; simp at ht
    | cons c rs =>
      have hno := stepConsume_no_cbq (stack.headD .root) prev (c :: rs)
      have hcs := stepConsume_spec (tableOK (stack.headD .root)) prev c rs
      rcases hsc : stepConsume (stateRules (stack.headD .root)) prev (c :: rs)
        with ⟨n, e, a⟩
      rw [hsc] at hno hcs
      rcases e with _ | k
      · exact absurd hcs.2.2 (by simp)
      · rw [scanA_cons hsc] at ht
        simp only [List.mem_cons] at ht
        rcases ht with rfl | ht
        · intro hc
          exact hno (by rw [← hc])
        · exact ih _ _ _ _ t ht

/-! ### Helpers for the line-comment and string-literal rule analyses -/

lemma takeWhile_append_stop {p : Char → Bool} {before : List Char} (x : Char)
    (after : List Char) (hall : ∀ c ∈ before, p c = true) (hx : p x = false) :
    (before ++ x :: after).takeWhile p = before := by
  induction before with
  | nil => simp [List.takeWhile_cons, hx]
  | cons c t ih =>
    have hc := hall c (by simp)
    simp only [List.cons_append, List.takeWhile_cons, if_pos hc]
    rw [ih fun d hd => hall d (by simp [hd])]

lemma matchPat_seq_none2 {a b : RPat} {prev : Option Char} {rest : List Char}
    {n1 : Nat} (h1 : matchPat a prev rest = some n1)
    (h2 : matchPat b (prevAfter prev rest n1) (rest.drop n1) = none) :
    matchPat (.seq a b) prev rest = none := by
  simp [matchPat, h1, h2]

/-! ### Claim theorems -/

/-- Claim C1: for every input string, the text fields of the tokens
returned by `tokenize`, concatenated in emission order, yield exactly the
original input; tokens are contiguous and non-overlapping, the first
starting at offset 0 and the last ending at the input length. -/
theorem c1_total_coverage (s : String) :
    ((tokenize s).map Token.text).flatten = s.toList ∧
      Chain 0 (tokenize s) s.toList.length := by
  have h := scanA_cover s.toList.length 0 none s.toList [.root] (le_refl _)
  exact ⟨h.1, by simpa using h.2.1⟩

/-- Claim C2, counterexample: tokenizing `"@true"` does NOT yield a
constant-boolean-quantum token; the single token it yields is
builtin-type-quantum, because `"@true"` is also listed among the quantum
builtin types (lexer.py line 82) whose rule (line 110) precedes the
quantum boolean rule (line 113). -/
theorem c2_quantum_sigil_counterexample :
    (tokenize "@true").map Token.kind ≠ [TokenKind.constantBooleanQuantum] ∧
      (tokenize "@true").map Token.kind = [TokenKind.builtinTypeQuantum] := by
  constructor <;> decide

/-- Claim C2, amended: `"@true"` yields a single builtin-type-quantum
token (not constant-boolean-quantum); `"true"` yields a single
constant-boolean token; `"@x"` yields a single identifier-quantum token;
`"@int"` yields a single builtin-type-quantum token. -/
theorem c2_quantum_sigil_amended :
    tokenize "@true" = [⟨.builtinTypeQuantum, "@true".toList, 0, 5⟩] ∧
      tokenize "true" = [⟨.constantBoolean, "true".toList, 0, 4⟩] ∧
      tokenize "@x" = [⟨.identifierQuantum, "@x".toList, 0, 2⟩] ∧
      tokenize "@int" = [⟨.builtinTypeQuantum, "@int".toList, 0, 4⟩] := by
  refine ⟨?_, ?_, ?_, ?_⟩ <;> decide

/-- Claim C3, counterexample: scanning `"/*"` from Root does emit a token
for the opener (the rule at lexer.py line 103 carries the token type
Comment.Multiline), contradicting the claim that the opener emits
nothing. -/
theorem c3_block_opener_counterexample :
    tokenize "/*" ≠ [] ∧
      tokenize "/*" = [⟨.comment, ['/', '*'], 0, 2⟩] := by
  constructor <;> decide

/-- Claim C3, amended: the block-comment opener emits a comment token for
the matched `/*` text and pushes the BlockComment state. -/
theorem c3_block_opener_amended :
    tokenize "/*" = [⟨.comment, ['/', '*'], 0, 2⟩] ∧
      tokenizeStacks "/*" = [[.root], [.comment, .root]] := by
  constructor <;> decide

/-- Claim C4: `tokenize` is total by construction, and whenever no rule of
the current state matches at the cursor, exactly one single-character
error-fallback token is emitted for the cursor character, the cursor
advances by one, and scanning continues; in particular `"$"` yields one
error-fallback token of length 1. -/
theorem c4_fallback_step (fuel pos : Nat) (prev : Option Char) (c : Char)
    (rs : List Char) (stack : List LexerState)
    (h : matchFirst (stateRules (stack.headD .root)) prev (c :: rs) = none) :
    (scanA (fuel + 1) pos prev (c :: rs) stack).1 =
      ⟨.errorFallback, [c], pos, pos + 1⟩ ::
        (scanA fuel (pos + 1) (some c) rs stack).1 ∧
      tokenize "$" = [⟨.errorFallback, ['$'], 0, 1⟩] := by
  constructor
  · have hsc : stepConsume (stateRules (stack.headD .root)) prev (c :: rs) =
        (1, some .errorFallback, .stay) := by
      unfold stepConsume
      rw [h]
    rw [scanA_cons hsc]
    rfl
  · decide

/-- Witness for C4 at the concrete input `"$"` in the Root state. -/
theorem c4_fallback_step_witness :
    (scanA 1 0 none ['$'] [.root]).1 =
      ⟨.errorFallback, ['$'], 0, 1⟩ :: (scanA 0 1 (some '$') [] [.root]).1 :=
  (c4_fallback_step 0 0 none '$' [] [.root] (by decide)).1

/-- Claim C5: `"0"` yields a single number-integer token, `"3.14"` a
single number-float token, `"@-5"` a single number-quantum-integer token,
and `"00"` yields two separate single-character tokens (an error-fallback
for the first zero, then a number-integer for the second) rather than one
two-character number-integer token. -/
theorem c5_numeric_literals :
    tokenize "0" = [⟨.numberInteger, ['0'], 0, 1⟩] ∧
      tokenize "3.14" = [⟨.numberFloat, "3.14".toList, 0, 4⟩] ∧
      tokenize "@-5" = [⟨.numberQuantumInteger, "@-5".toList, 0, 3⟩] ∧
      tokenize "00" = [⟨.errorFallback, ['0'], 0, 1⟩,
        ⟨.numberInteger, ['0'], 1, 2⟩] ∧
      (tokenize "00").map Token.kind ≠ [TokenKind.numberInteger] := by
  refine ⟨?_, ?_, ?_, ?_, ?_⟩ <;> decide

/-- Claim C6, counterexample: a `//` comment on the final line with no
terminating newline is NOT matched as a single comment token — the
pattern of lexer.py line 102 requires the closing `\n` — so `"//a"`
degrades to two error-fallback tokens and an identifier token. -/
theorem c6_line_comment_counterexample :
    (tokenize "//a").map Token.kind ≠ [TokenKind.comment] ∧
      (tokenize "//a").map Token.kind =
        [TokenKind.errorFallback, TokenKind.errorFallback, TokenKind.identifier] := by
  constructor <;> decide

/-- Claim C6, amended: in the Root state, `//` followed by any
newline-free text and then a newline matches as one comment token through
and including that newline; when no newline follows before the end of
input, the line-comment rule does not match at all (and the slashes fall
through to other rules or the fallback, as on `"//a"`). -/
theorem c6_line_comment_amended :
    (∀ (before after : List Char) (prev : Option Char), '\n' ∉ before →
        matchPat lineCommentPat prev ('/' :: '/' :: (before ++ '\n' :: after)) =
          some (before.length + 3)) ∧
      (∀ (tail : List Char) (prev : Option Char), '\n' ∉ tail →
        matchPat lineCommentPat prev ('/' :: '/' :: tail) = none) ∧
      tokenize "//a\n" = [⟨.comment, "//a\n".toList, 0, 4⟩] ∧
      (tokenize "//a").map Token.kind =
        [TokenKind.errorFallback, TokenKind.errorFallback, TokenKind.identifier] := by
  refine ⟨?_, ?_, by decide, by decide⟩
  · intro before after prev hnl
    have h1 : matchPat (.lit ['/', '/']) prev
        ('/' :: '/' :: (before ++ '\n' :: after)) = some 2 := by
      simp [matchPat]
    have htw : (before ++ '\n' :: after).takeWhile (fun c => !(c == '\n')) = before :=
      takeWhile_append_stop '\n' after
        (fun c hc => by
          have hne : c ≠ '\n' := fun e => hnl (e ▸ hc)
          simp [hne])
        (by simp)
    have hstar2 : matchPat (.star fun c => !(c == '\n'))
        (prevAfter prev ('/' :: '/' :: (before ++ '\n' :: after)) 2)
        (('/' :: '/' :: (before ++ '\n' :: after)).drop 2) = some before.length := by
      show matchPat (.star fun c => !(c == '\n')) _ (before ++ '\n' :: after) =
        some before.length
      simp only [matchPat, htw]
    have hchr2 : matchPat (.chr fun c => c == '\n')
        (prevAfter (prevAfter prev ('/' :: '/' :: (before ++ '\n' :: after)) 2)
          (('/' :: '/' :: (before ++ '\n' :: after)).drop 2) before.length)
        ((('/' :: '/' :: (before ++ '\n' :: after)).drop 2).drop before.length) =
        some 1 := by
      show matchPat (.chr fun c => c == '\n') _
        ((before ++ '\n' :: after).drop before.length) = some 1
      rw [List.drop_left]
      simp [matchPat]
    have hout := matchPat_seq_intro h1 (matchPat_seq_intro hstar2 hchr2)
    rw [show lineCommentPat = .seq (.lit ['/', '/'])
      (.seq (.star fun c => !(c == '\n')) (.chr fun c => c == '\n')) from rfl]
    rw [hout]
    simp only [Option.some_inj]
    omega
  · intro tail prev hnl
    have h1 : matchPat (.lit ['/', '/']) prev ('/' :: '/' :: tail) = some 2 := by
      simp [matchPat]
    have htw : tail.takeWhile (fun c => !(c == '\n')) = tail :=
      List.takeWhile_eq_self_iff.mpr fun c hc => by
        have hne : c ≠ '\n' := fun e => hnl (e ▸ hc)
        simp [hne]
    have hstar2 : matchPat (.star fun c => !(c == '\n'))
        (prevAfter prev ('/' :: '/' :: tail) 2)
        (('/' :: '/' :: tail).drop 2) = some tail.length := by
      show matchPat (.star fun c => !(c == '\n')) _ tail = some tail.length
      simp only [matchPat, htw]
    have hchr2 : matchPat (.chr fun c => c == '\n')
        (prevAfter (prevAfter prev ('/' :: '/' :: tail) 2)
          (('/' :: '/' :: tail).drop 2) tail.length)
        ((('/' :: '/' :: tail).drop 2).drop tail.length) = none := by
      show matchPat (.chr fun c => c == '\n') _ (tail.drop tail.length) = none
      rw [List.drop_length]
      rfl
    exact matchPat_seq_none2 h1 (matchPat_seq_none2 hstar2 hchr2)

/-- Witness for C6's amended claim at a concrete line comment. -/
theorem c6_line_comment_amended_witness :
    matchPat lineCommentPat none ('/' :: '/' :: (['a'] ++ '\n' :: [])) = some 4 :=
  c6_line_comment_amended.1 ['a'] [] none (by decide)

/-- Claim C7: throughout tokenization of any input the state stack is
never empty and always has Root at its bottom; popping the lone Root
state is a no-op. -/
theorem c7_stack_invariant :
    (∀ (s : String), ∀ st ∈ tokenizeStacks s,
        st ≠ [] ∧ st.getLast? = some LexerState.root) ∧
      applyAction .pop [.root] = [.root] := by
  refine ⟨?_, rfl⟩
  intro s st hst
  exact scanA_stacks s.toList.length 0 none s.toList [.root] (by simp) rfl st hst

/-- Witness for C7 on the empty input, whose only traversed stack is the
initial `[root]`. -/
theorem c7_stack_invariant_witness :
    [LexerState.root] ≠ [] ∧
      [LexerState.root].getLast? = some LexerState.root :=
  c7_stack_invariant.1 "" [LexerState.root] (by decide)

/-- Claim C8: tokenization terminates for every finite input — scanning
with fuel equal to the input length already reaches the end of input
(more fuel changes nothing), the number of steps (= emitted tokens) is at
most the input length, and every rule pattern of every state matches only
non-empty text. -/
theorem c8_terminates_linear :
    (∀ (s : String) (fuel : Nat), s.toList.length ≤ fuel →
        (scanA fuel 0 none s.toList [.root]).1 = tokenize s) ∧
      (∀ (s : String), (tokenize s).length ≤ s.toList.length) ∧
      ((rootRules ++ commentRules ++ traitListRules ++ modifierRules).all
        fun r => posPat r.pat) = true := by
  refine ⟨?_, ?_, rfl⟩
  · intro s fuel hle
    unfold tokenize
    rw [scanA_fuel fuel 0 none s.toList [.root] hle]
  · intro s
    exact (scanA_cover s.toList.length 0 none s.toList [.root] (le_refl _)).2.2

/-- Witness for C8 at `"ab"` with surplus fuel. -/
theorem c8_terminates_linear_witness :
    (scanA 7 0 none "ab".toList [.root]).1 = tokenize "ab" :=
  c8_terminates_linear.1 "ab" 7 (by decide)

/-- Claim C9: no input ever produces a constant-boolean-quantum token:
the quantum boolean rule (lexer.py line 113) is dead, because `@false`
and `@true` also belong to the quantum builtin-type word set whose rule
(line 110) is tried earlier and matches whenever the boolean rule would. -/
theorem c9_no_quantum_bool_token (s : String) :
    ∀ t ∈ tokenize s, t.kind ≠ TokenKind.constantBooleanQuantum := by
  intro t ht
  exact scanA_no_cbq s.toList.length 0 none s.toList [.root] t ht

/-- Witness for C9 on the input `"x"` and its identifier token. -/
theorem c9_no_quantum_bool_token_witness :
    Token.kind ⟨TokenKind.identifier, ['x'], 0, 1⟩ ≠
      TokenKind.constantBooleanQuantum :=
  c9_no_quantum_bool_token "x" ⟨TokenKind.identifier, ['x'], 0, 1⟩ (by decide)

/-- Claim C10: in the Root state, an opening double quote with no closing
quote before the end of input makes the string-literal rule fail, no
other Root rule matches there either, and the scanner emits a
single-character error-fallback token for the quote and continues on the
following character. -/
theorem c10_unterminated_string (rs : List Char) (prev : Option Char)
    (pos fuel : Nat) (st : List LexerState) (h : '"' ∉ rs) :
    matchPat stringPat prev ('"' :: rs) = none ∧
      matchFirst rootRules prev ('"' :: rs) = none ∧
      (scanA (fuel + 1) pos prev ('"' :: rs) (LexerState.root :: st)).1 =
        ⟨.errorFallback, ['"'], pos, pos + 1⟩ ::
          (scanA fuel (pos + 1) (some '"') rs (LexerState.root :: st)).1 := by
  have h1 : matchPat (.chr fun c => c == '"') prev ('"' :: rs) = some 1 := by
    simp [matchPat]
  have htw : rs.takeWhile (fun c => !(c == '"')) = rs :=
    List.takeWhile_eq_self_iff.mpr fun c hc => by
      have hne : c ≠ '"' := fun e => h (e ▸ hc)
      simp [hne]
  have hstar2 : matchPat (.star fun c => !(c == '"'))
      (prevAfter prev ('"' :: rs) 1) (('"' :: rs).drop 1) = some rs.length := by
    show matchPat (.star fun c => !(c == '"')) _ rs = some rs.length
    simp only [matchPat, htw]
  have hchr2 : matchPat (.chr fun c => c == '"')
      (prevAfter (prevAfter prev ('"' :: rs) 1) (('"' :: rs).drop 1) rs.length)
      ((('"' :: rs).drop 1).drop rs.length) = none := by
    show matchPat (.chr fun c => c == '"') _ (rs.drop rs.length) = none
    rw [List.drop_length]
    rfl
  have hstr : matchPat stringPat prev ('"' :: rs) = none :=
    matchPat_seq_none2 h1 (matchPat_seq_none2 hstar2 hchr2)
  have hmf : matchFirst rootRules prev ('"' :: rs) = none := by
    apply matchFirst_all_none
    intro r hr
    simp only [rootRules, List.mem_append, List.mem_cons] at hr
    rcases hr with hr | rfl | rfl | rfl | hr
    · simp only [rootPre, List.mem_cons, List.not_mem_nil, or_false] at hr
      rcases hr with rfl | rfl | rfl | rfl | rfl | rfl | rfl <;>
        exact matchPat_none_of_canStart_cons rs (by decide) prev
    · exact matchPat_none_of_canStart_cons rs (by decide) prev
    · exact matchPat_none_of_canStart_cons rs (by decide) prev
    · exact matchPat_none_of_canStart_cons rs (by decide) prev
    · simp only [rootPost, List.mem_cons, List.not_mem_nil, or_false] at hr
      rcases hr with rfl | rfl | rfl | rfl | rfl | rfl | rfl | rfl | rfl | rfl |
        rfl | rfl | rfl | rfl | rfl | rfl | rfl | rfl | rfl
      all_goals
        first
          | exact hstr
          | exact matchPat_none_of_canStart_cons rs (by decide) prev
  refine ⟨hstr, hmf, ?_⟩
  have hsc : stepConsume (stateRules ((LexerState.root :: st).headD .root)) prev
      ('"' :: rs) = (1, some .errorFallback, .stay) := by
    show stepConsume rootRules prev ('"' :: rs) = _
    unfold stepConsume
    rw [hmf]
  rw [scanA_cons hsc]
  rfl

/-- Witness for C10 at the concrete unterminated string `"a`. -/
theorem c10_unterminated_string_witness :
    matchFirst rootRules none ['"', 'a'] = none :=
  (c10_unterminated_string ['a'] none 0 0 [] (by decide)).2.1

end HeatherLex
